import Mathlib

/-!
Verification of `torchsummary.py` (instrumentation walker, per-layer record
computation, recursion detection, totals) against its specification.

The module graph is embedded as a finite tree of nodes.  Each node carries
`mid`, modelling the Python object identity (`id(module)`), an `atomic` flag
modelling `isinstance(module, LAYER_MODULES)` (i.e. `MultiheadAttention`),
and its list of child modules (`module.children()`).
-/

inductive NNModule where
  | mk (mid : Nat) (atomic : Bool) (children : List NNModule)

def NNModule.mid : NNModule → Nat
  | .mk i _ _ => i

def NNModule.atomic : NNModule → Bool
  | .mk _ a _ => a

def NNModule.children : NNModule → List NNModule
  | .mk _ _ cs => cs

@[simp]
theorem NNModule.mid_mk (i : Nat) (a : Bool) (cs : List NNModule) :
    (NNModule.mk i a cs).mid = i := rfl

@[simp]
theorem NNModule.atomic_mk (i : Nat) (a : Bool) (cs : List NNModule) :
    (NNModule.mk i a cs).atomic = a := rfl

@[simp]
theorem NNModule.children_mk (i : Nat) (a : Bool) (cs : List NNModule) :
    (NNModule.mk i a cs).children = cs := rfl

mutual
def beqM : NNModule → NNModule → Bool
  | .mk i a cs, .mk j b ds => i == j && a == b && beqML cs ds

def beqML : List NNModule → List NNModule → Bool
  | [], [] => true
  | x :: xs, y :: ys => beqM x y && beqML xs ys
  | _, _ => false
end

mutual
theorem beqM_iff : ∀ a b : NNModule, beqM a b = true ↔ a = b
  | .mk i a cs, .mk j b ds => by
    simp [beqM, beqML_iff cs ds, NNModule.mk.injEq, and_assoc]

theorem beqML_iff : ∀ as bs : List NNModule, beqML as bs = true ↔ as = bs
  | [], [] => by simp [beqML]
  | [], _ :: _ => by simp [beqML]
  | _ :: _, [] => by simp [beqML]
  | x :: xs, y :: ys => by simp [beqML, beqM_iff x y, beqML_iff xs ys]
end

instance : DecidableEq NNModule := fun a b => decidable_of_iff _ (beqM_iff a b)

mutual
/-- Embedding of `module.modules()`: the node itself followed by all modules
of its subtree, pre-order.  (PyTorch deduplicates aliased modules; on a tree
the listing is already duplicate-free, and only emptiness of a filtered copy
of this list is consumed by the walker, which deduplication does not
change.) -/
def NNModule.modulesList : NNModule → List NNModule
  | .mk i a cs => .mk i a cs :: modulesListL cs

def modulesListL : List NNModule → List NNModule
  | [] => []
  | c :: cs => c.modulesList ++ modulesListL cs
end

mutual
/-- All nodes of the tree paired with their distance from the root (the root
is passed depth `c`), in pre-order.  Reference listing used to state depth
properties; not part of the code. -/
def nodeDepths : NNModule → Nat → List (NNModule × Nat)
  | .mk i a cs, c => (.mk i a cs, c) :: nodeDepthsL cs (c + 1)

def nodeDepthsL : List NNModule → Nat → List (NNModule × Nat)
  | [], _ => []
  | x :: xs, c => nodeDepths x c ++ nodeDepthsL xs c
end

mutual
/-- The nodes on which `apply_hooks` is invoked (paired with the
`curr_depth` argument of that invocation): the node itself, and, when
`curr_depth <= depth`, recursively every child at `curr_depth + 1`. -/
def visited : NNModule → Nat → Nat → List (NNModule × Nat)
  | .mk i a cs, maxDepth, c =>
    (.mk i a cs, c) :: (if c ≤ maxDepth then visitedL cs maxDepth (c + 1) else [])

def visitedL : List NNModule → Nat → Nat → List (NNModule × Nat)
  | [], _, _ => []
  | x :: xs, maxDepth, c => visited x maxDepth c ++ visitedL xs maxDepth c
end

/-- The hook-registration condition of `apply_hooks`:
`module != orig_model or isinstance(module, LAYER_MODULES) or not submodules`
where `submodules = [m for m in module.modules() if m is not orig_model]`.
`nn.Module` does not override `__eq__`, so `!=` is identity comparison,
modelled by the `mid` field. -/
def hookCond (m : NNModule) (origId : Nat) : Bool :=
  (m.mid != origId) || m.atomic ||
    (m.modulesList.filter (fun x => x.mid != origId)).isEmpty

mutual
/-- Embedding of `apply_hooks(module, orig_model, depth, ...)`: the list of
hooked modules, each paired with the `curr_depth` captured by its hook
closure (which becomes the `depth` field of the layer record the hook
produces), in registration order. -/
def apply_hooks : NNModule → Nat → Nat → Nat → List (NNModule × Nat)
  | .mk i a cs, origId, maxDepth, c =>
    (if hookCond (.mk i a cs) origId then [(.mk i a cs, c)] else []) ++
      (if c ≤ maxDepth then apply_hooksL cs origId maxDepth (c + 1) else [])

def apply_hooksL : List NNModule → Nat → Nat → Nat → List (NNModule × Nat)
  | [], _, _, _ => []
  | x :: xs, origId, maxDepth, c =>
    apply_hooks x origId maxDepth c ++ apply_hooksL xs origId maxDepth c
end

/-- Witness data: a root with two children, one atomic leaf and one plain
leaf. -/
def demoRoot : NNModule := .mk 0 false [.mk 1 true [], .mk 2 false []]

/-!
The `hook` closure of `apply_hooks`.  It fires once per actual invocation
of its module during the forward pass; the sequence of firings is the
execution order of the instrumented pass.  Of the fields of `LayerInfo`
(a class outside this file's source), `torchsummary.py` itself computes
`curr_depth` and the per-depth index; a firing is therefore modelled by
the captured depth of the fired hook. -/

structure LayerRec where
  depth : Nat
  order : Nat
deriving DecidableEq

/-- The body of `hook` over a whole pass, given the sequence of captured
depths of the fired hooks, in firing order:
`idx[curr_depth] = idx.get(curr_depth, 0) + 1`, then
`LayerInfo(module, curr_depth, idx[curr_depth])` is appended to
`summary_list`.  The dict `idx` is modelled as a total function whose
default value is 0. -/
def runHooks : List Nat → (Nat → Nat) → List LayerRec
  | [], _ => []
  | d :: ds, idx =>
    ⟨d, idx d + 1⟩ :: runHooks ds (fun x => if x = d then idx d + 1 else idx x)

/-!
Recursion detection and parameter totals.  `LayerInfo.check_recursive` and
`ModelStatistics` live in `layer_info.py` / `model_statistics.py`, which are
not part of the provided source; they are modelled from the spec below.
-/

/-- One directly owned parameter tensor: its physical identity, element
count, and gradient-tracking flag. -/
structure TorchParam where
  pid : Nat
  numel : Nat
  requiresGrad : Bool
deriving DecidableEq

/-- A pass record: the node's directly owned parameters, and the
`is_recursive` flag computed for it. -/
abbrev PassRecord := List TorchParam × Bool

/-- Modelled from the spec: `LayerInfo.check_recursive` (in `layer_info.py`,
not under the provided source) together with the Pass Context's set of
already-attributed parameter identities.  "If any of this node's owned
parameter identities already appear in that set, mark `is_recursive = true`
and do not add this node's counts into the set; otherwise add them and
proceed normally."  The input is the per-node owned-parameter lists in
observation order; `seen` is the identity set carried by the pass. -/
def check_recursive_pass : List (List TorchParam) → List Nat → List PassRecord
  | [], _ => []
  | ps :: rest, seen =>
    if ps.any (fun p => seen.contains p.pid) then
      (ps, true) :: check_recursive_pass rest seen
    else
      (ps, false) :: check_recursive_pass rest (seen ++ ps.map TorchParam.pid)

def passRecords (pass : List (List TorchParam)) : List PassRecord :=
  check_recursive_pass pass []

/-- Modelled from the spec: a record's `num_params` — the element count of
all parameters directly owned by the node. -/
def numParams (ps : List TorchParam) : Nat := (ps.map TorchParam.numel).sum

/-- Modelled from the spec: the trainable / frozen partition of a record's
own parameters, by the gradient-tracking flag. -/
def numParamsBy (b : Bool) (ps : List TorchParam) : Nat :=
  ((ps.filter (fun p => p.requiresGrad == b)).map TorchParam.numel).sum

/-- Modelled from the spec: the aggregator's totals sum only records where
`is_recursive` is false. -/
def countedRecords (pass : List (List TorchParam)) : List PassRecord :=
  (passRecords pass).filter (fun r => !r.2)

def total_params (pass : List (List TorchParam)) : Nat :=
  ((countedRecords pass).map (fun r => numParams r.1)).sum

def trainable_params (pass : List (List TorchParam)) : Nat :=
  ((countedRecords pass).map (fun r => numParamsBy true r.1)).sum

def frozen_params (pass : List (List TorchParam)) : Nat :=
  ((countedRecords pass).map (fun r => numParamsBy false r.1)).sum

def ownsId (r : PassRecord) (i : Nat) : Bool := r.1.any (fun p => p.pid == i)

/-- How many non-recursive records own the parameter identity `i`, i.e. how
often identity `i` enters the totals. -/
def timesCounted (pass : List (List TorchParam)) (i : Nat) : Nat :=
  (passRecords pass).countP (fun r => !r.2 && ownsId r i)

def appearsIn (pass : List (List TorchParam)) (i : Nat) : Bool :=
  pass.any (fun ps => ps.any (fun p => p.pid == i))

/-- The identities attributed by a (prefix of a) marked record list: all
parameter identities owned by its non-recursive records. -/
def attributedIds (rs : List PassRecord) : List Nat :=
  (rs.filter (fun r => !r.2)).flatMap (fun r => r.1.map TorchParam.pid)

/-- Counterexample data: the first node owns identities {1, 2}, the second
owns {2, 3}.  The second record is marked recursive because identity 2 was
already attributed, so identity 3 — a physically distinct tensor that does
appear in the pass — is counted zero times. -/
def overlappingPass : List (List TorchParam) :=
  [[⟨1, 5, true⟩, ⟨2, 3, true⟩], [⟨2, 3, true⟩, ⟨3, 4, true⟩]]

/-- Scenario C of the spec: two records aliasing one weight tensor. -/
def sharedWeightPass : List (List TorchParam) := [[⟨7, 4, true⟩], [⟨7, 4, true⟩]]

/-!
The driver `summary` and its collaborators: input-specification
normalization (`get_correct_input_sizes`), synthetic input construction
(`get_input_tensor`), keyword-argument processing, and the
try/except/finally around the single forward invocation.
-/

/-- A Python size expression: an int, or a list/tuple of size expressions
(`isTuple = true` for tuples, `false` for lists). -/
inductive PySize where
  | int (n : Int)
  | seq (isTuple : Bool) (xs : List PySize)

mutual
def beqS : PySize → PySize → Bool
  | .int n, .int m => n == m
  | .seq t xs, .seq u ys => t == u && beqSL xs ys
  | _, _ => false

def beqSL : List PySize → List PySize → Bool
  | [], [] => true
  | x :: xs, y :: ys => beqS x y && beqSL xs ys
  | _, _ => false
end

mutual
theorem beqS_iff : ∀ a b : PySize, beqS a b = true ↔ a = b
  | .int n, .int m => by simp [beqS]
  | .int _, .seq _ _ => by simp [beqS]
  | .seq _ _, .int _ => by simp [beqS]
  | .seq t xs, .seq u ys => by
    simp [beqS, beqSL_iff xs ys, PySize.seq.injEq]

theorem beqSL_iff : ∀ as bs : List PySize, beqSL as bs = true ↔ as = bs
  | [], [] => by simp [beqSL]
  | [], _ :: _ => by simp [beqSL]
  | _ :: _, [] => by simp [beqSL]
  | x :: xs, y :: ys => by simp [beqSL, beqS_iff x y, beqSL_iff xs ys]
end

instance : DecidableEq PySize := fun a b => decidable_of_iff _ (beqS_iff a b)

mutual
/-- The `flatten` generator inside `get_correct_input_sizes`. -/
def flattenSizes : List PySize → List Int
  | [] => []
  | s :: rest => flattenOne s ++ flattenSizes rest

def flattenOne : PySize → List Int
  | .int n => [n]
  | .seq _ xs => flattenSizes xs
end

def isTupleSize : PySize → Bool
  | .seq true _ => true
  | _ => false

def isIntSize : PySize → Bool
  | .int _ => true
  | _ => false

instance {ε α : Type} [DecidableEq ε] [DecidableEq α] : DecidableEq (Except ε α) := fun x y =>
  match x, y with
  | .ok a, .ok b => decidable_of_iff (a = b) (by simp)
  | .error a, .error b => decidable_of_iff (a = b) (by simp)
  | .ok _, .error _ => .isFalse fun h => Except.noConfusion h
  | .error _, .ok _ => .isFalse fun h => Except.noConfusion h

/-- The error kinds `summary` can raise before or during the pass.
`fwdError e` stands for the (arbitrary) exception object of identity `e`
raised inside the forward invocation. -/
inductive PyErr where
  | assertionError
  | typeError
  | valueError
  | fwdError (e : Nat)
deriving DecidableEq

/-- Embedding of `get_correct_input_sizes(input_size)` for a list
(`isTuple = false`) or tuple (`isTuple = true`) argument with elements `xs`:
`assert input_size` (an empty sequence is falsy), `assert all(size > 0 for
size in flatten(input_size))`, then the four normalization branches. -/
def get_correct_input_sizes (isTuple : Bool) (xs : List PySize) :
    Except PyErr (List PySize) :=
  if xs.isEmpty then .error .assertionError
  else if !(flattenSizes xs).all (fun n => decide (0 < n)) then .error .assertionError
  else if isTuple then
    if isTupleSize (xs.headD (.int 0)) then .ok xs else .ok [.seq true xs]
  else
    if isIntSize (xs.headD (.int 0)) then .ok [.seq true xs] else .ok xs

/-- The `input_data` argument of `summary`: a tensor (whose `.size()` is a
tuple of dimensions), a list/tuple of size expressions, or anything else
(rejected with `TypeError`). -/
inductive InputData where
  | tensor (size : List Int)
  | seqInput (isTuple : Bool) (xs : List PySize)
  | other
deriving DecidableEq

/-- The input-processing stage of `summary` (lines 75-91): a tensor goes
through `get_correct_input_sizes(input_data.size())`; a list/tuple first
hits the dtype/device check (`ValueError` when `dtypes is None` and the
device type is not cpu/gpu), then `get_correct_input_sizes(input_data)`;
anything else raises `TypeError`. -/
def validateInput (input : InputData) (deviceType : String) (dtypesGiven : Bool) :
    Except PyErr (List PySize) :=
  match input with
  | .tensor dims => get_correct_input_sizes true (dims.map PySize.int)
  | .seqInput isTup xs =>
    if !dtypesGiven && !(deviceType == "cpu" || deviceType == "gpu") then
      .error .valueError
    else get_correct_input_sizes isTup xs
  | .other => .error .typeError

/-- Outcome of the single (external) forward invocation: the depths of the
hooks it fired in execution order, and for a failing pass the identity of
the exception object it raised. -/
inductive FwdOutcome where
  | ok (events : List Nat)
  | raises (events : List Nat) (exc : Nat)
deriving DecidableEq

structure SummaryOutcome where
  result : Except PyErr (List LayerRec)
  hooksLeft : List (NNModule × Nat)
  diagnostic : Option (List LayerRec)
deriving DecidableEq

/-- Embedding of `summary(model, input_data, ...)`, stage by stage:
`apply_hooks` runs first (line 70); the input specification is processed
next (lines 75-91) and an error there propagates directly — the `finally`
block belongs to the later `try`, so nothing removes the already-registered
hooks; only the forward invocation (lines 96-104) is wrapped in
try/except/finally, whose `except` prints the partial `summary_list` and
bare-`raise`s the original exception, and whose `finally` removes every
handle in `hooks`. -/
def summary (model : NNModule) (input : InputData) (maxDepth : Nat)
    (deviceType : String) (dtypesGiven : Bool) (fwd : FwdOutcome) : SummaryOutcome :=
  let hooks := apply_hooks model model.mid maxDepth 0
  match validateInput input deviceType dtypesGiven with
  | .error e => ⟨.error e, hooks, none⟩
  | .ok _ =>
    match fwd with
    | .ok events => ⟨.ok (runHooks events (fun _ => 0)), [], none⟩
    | .raises events exc =>
        ⟨.error (.fwdError exc), [], some (runHooks events (fun _ => 0))⟩

/-!
Embedding of `get_input_tensor`, at the level of tensor shapes (every
tensor operation used — `rand`, `unsqueeze`, `cat` — is determined by its
shape effect).
-/

/-- Shape insertion: the list with `a` inserted at index `d` (identity
when `d` exceeds the length, a case excluded by the validity bound on the
batch dimension). -/
def insertDim : Nat → Nat → List Nat → List Nat
  | 0, a, s => a :: s
  | _ + 1, _, [] => []
  | d + 1, a, x :: xs => x :: insertDim d a xs

/-- Shape effect of `input_tensor.unsqueeze(dim=batch_dim)`: the shape
gains a dimension of extent 1 at index `batch_dim`. -/
def unsqueezeShape (s : List Nat) (d : Nat) : List Nat := insertDim d 1 s

/-- Shape effect of `torch.cat([input_tensor] * 2, dim=batch_dim)`: the
extent at index `batch_dim` doubles. -/
def catTwoShape (s : List Nat) (d : Nat) : List Nat := s.set d (2 * s.getD d 0)

/-- The list/tuple branch of `get_input_tensor`'s loop body for one shape
descriptor `size`: `torch.rand(*size)` (shape `size`), `unsqueeze`, `cat`
of two copies. -/
def get_input_tensor_shape (size : List Nat) (batchDim : Nat) : List Nat :=
  catTwoShape (unsqueezeShape size batchDim) batchDim

/-!
The keyword-argument stage of `summary` (line 94):
`kwargs = {k: kwargs[k].to(device) if torch.is_tensor(kwargs[k]) else k
           for k in kwargs}`.
-/

/-- A Python value appearing as a keyword argument: a tensor (tracked with
the device it lives on and its identity), a string, or another scalar. -/
inductive PyVal where
  | tensor (device : String) (tid : Nat)
  | str (s : String)
  | intv (n : Int)
deriving DecidableEq

def PyVal.is_tensor : PyVal → Bool
  | .tensor _ _ => true
  | _ => false

/-- Effect of `.to(device)` on a tensor; identity on anything else. -/
def PyVal.toDev : PyVal → String → PyVal
  | .tensor _ t, dev => .tensor dev t
  | v, _ => v

/-- The kwargs dict comprehension: tensor values are moved to the device;
any other value is replaced by the key `k` itself (the `else` arm of the
comprehension yields `k`, not `kwargs[k]`). -/
def processKwargs (device : String) (kwargs : List (String × PyVal)) :
    List (String × PyVal) :=
  kwargs.map (fun kv => (kv.1, if kv.2.is_tensor then kv.2.toDev device else .str kv.1))

/-!
Structure lemmas for the walker: the visited set is a depth filter of the
node listing, and the hooked set is the registration-condition filter of
the visited set.
-/

mutual
theorem nodeDepths_ge : ∀ (m : NNModule) (c : Nat), ∀ p ∈ nodeDepths m c, c ≤ p.2
  | .mk i a cs, c => by
    intro p hp
    simp only [nodeDepths, List.mem_cons] at hp
    rcases hp with h | h
    · subst h; exact Nat.le_refl c
    · exact Nat.le_of_succ_le (nodeDepthsL_ge cs (c + 1) p h)

theorem nodeDepthsL_ge : ∀ (xs : List NNModule) (c : Nat), ∀ p ∈ nodeDepthsL xs c, c ≤ p.2
  | [], _ => by intro p hp; simp [nodeDepthsL] at hp
  | x :: xs, c => by
    intro p hp
    simp only [nodeDepthsL, List.mem_append] at hp
    rcases hp with h | h
    · exact nodeDepths_ge x c p h
    · exact nodeDepthsL_ge xs c p h
end

mutual
theorem visited_eq_filter : ∀ (m : NNModule) (maxDepth c : Nat), c ≤ maxDepth + 1 →
    visited m maxDepth c = (nodeDepths m c).filter (fun p => decide (p.2 ≤ maxDepth + 1))
  | .mk i a cs, maxDepth, c => by
    intro hc
    simp only [visited, nodeDepths, List.filter_cons, decide_eq_true_eq, if_pos hc]
    by_cases h : c ≤ maxDepth
    · rw [if_pos h, visitedL_eq_filter cs maxDepth (c + 1) (by omega)]
    · rw [if_neg h]
      have : (nodeDepthsL cs (c + 1)).filter (fun p => decide (p.2 ≤ maxDepth + 1)) = [] := by
        rw [List.filter_eq_nil_iff]
        intro p hp
        have := nodeDepthsL_ge cs (c + 1) p hp
        simp only [decide_eq_true_eq]
        omega
      rw [this]

theorem visitedL_eq_filter : ∀ (xs : List NNModule) (maxDepth c : Nat), c ≤ maxDepth + 1 →
    visitedL xs maxDepth c = (nodeDepthsL xs c).filter (fun p => decide (p.2 ≤ maxDepth + 1))
  | [], _, _ => by intro _; simp [visitedL, nodeDepthsL]
  | x :: xs, maxDepth, c => by
    intro hc
    simp only [visitedL, nodeDepthsL, List.filter_append]
    rw [visited_eq_filter x maxDepth c hc, visitedL_eq_filter xs maxDepth c hc]
end

mutual
theorem apply_hooks_eq_filter : ∀ (m : NNModule) (o maxDepth c : Nat),
    apply_hooks m o maxDepth c = (visited m maxDepth c).filter (fun p => hookCond p.1 o)
  | .mk i a cs, o, maxDepth, c => by
    simp only [apply_hooks, visited, List.filter_cons]
    by_cases hh : hookCond (.mk i a cs) o
    · rw [if_pos hh, if_pos hh]
      by_cases h : c ≤ maxDepth
      · rw [if_pos h, if_pos h, apply_hooksL_eq_filter cs o maxDepth (c + 1)]
        rfl
      · rw [if_neg h, if_neg h]; rfl
    · rw [if_neg hh, if_neg hh]
      by_cases h : c ≤ maxDepth
      · rw [if_pos h, if_pos h, apply_hooksL_eq_filter cs o maxDepth (c + 1)]
        rfl
      · rw [if_neg h, if_neg h]; rfl

theorem apply_hooksL_eq_filter : ∀ (xs : List NNModule) (o maxDepth c : Nat),
    apply_hooksL xs o maxDepth c = (visitedL xs maxDepth c).filter (fun p => hookCond p.1 o)
  | [], _, _, _ => by simp [apply_hooksL, visitedL]
  | x :: xs, o, maxDepth, c => by
    simp only [apply_hooksL, visitedL, List.filter_append]
    rw [apply_hooks_eq_filter x o maxDepth c, apply_hooksL_eq_filter xs o maxDepth c]
end

mutual
theorem nodeDepths_map_fst : ∀ (m : NNModule) (c : Nat),
    (nodeDepths m c).map Prod.fst = m.modulesList
  | .mk i a cs, c => by
    simp only [nodeDepths, NNModule.modulesList, List.map_cons]
    rw [nodeDepthsL_map_fst cs (c + 1)]

theorem nodeDepthsL_map_fst : ∀ (xs : List NNModule) (c : Nat),
    (nodeDepthsL xs c).map Prod.fst = modulesListL xs
  | [], _ => by simp [nodeDepthsL, modulesListL]
  | x :: xs, c => by
    simp only [nodeDepthsL, modulesListL, List.map_append]
    rw [nodeDepths_map_fst x c, nodeDepthsL_map_fst xs c]
end

theorem modulesListL_eq_nil : ∀ xs : List NNModule, modulesListL xs = [] ↔ xs = []
  | [] => by simp [modulesListL]
  | .mk i a cs :: xs => by
    simp [modulesListL, NNModule.modulesList]

theorem mem_visited_mem_modulesList (m : NNModule) (maxDepth : Nat) (p : NNModule × Nat)
    (hp : p ∈ visited m maxDepth 0) : p.1 ∈ m.modulesList := by
  rw [visited_eq_filter m maxDepth 0 (by omega)] at hp
  have h1 : p ∈ nodeDepths m 0 := (List.mem_filter.1 hp).1
  rw [← nodeDepths_map_fst m 0]
  exact List.mem_map_of_mem Prod.fst h1

theorem modulesList_cons (i : Nat) (a : Bool) (cs : List NNModule) :
    (NNModule.mk i a cs).modulesList = .mk i a cs :: modulesListL cs := by
  simp [NNModule.modulesList]

/-- With pairwise distinct object identities, a subtree member carrying the
root's identity is the root itself. -/
theorem eq_root_of_mid_eq (root : NNModule) (n : NNModule)
    (hnd : (root.modulesList.map NNModule.mid).Nodup)
    (hn : n ∈ root.modulesList) (hmid : n.mid = root.mid) : n = root := by
  obtain ⟨i, a, cs⟩ := root
  rw [modulesList_cons] at hnd hn
  simp only [List.map_cons, List.nodup_cons] at hnd
  rcases List.mem_cons.1 hn with h | h
  · exact h
  · exfalso
    exact hnd.1 (hmid ▸ List.mem_map_of_mem NNModule.mid h)

theorem descendant_mid_ne (i : Nat) (a : Bool) (cs : List NNModule)
    (hnd : ((NNModule.mk i a cs).modulesList.map NNModule.mid).Nodup) :
    ∀ x ∈ modulesListL cs, x.mid ≠ i := by
  rw [modulesList_cons] at hnd
  simp only [List.map_cons, List.nodup_cons] at hnd
  intro x hx he
  have hmem : x.mid ∈ (modulesListL cs).map NNModule.mid := List.mem_map_of_mem NNModule.mid hx
  rw [he] at hmem
  exact hnd.1 (by simpa using hmem)

theorem hookCond_root (i : Nat) (a : Bool) (cs : List NNModule)
    (hnd : ((NNModule.mk i a cs).modulesList.map NNModule.mid).Nodup) :
    (hookCond (.mk i a cs) i = true ↔ (a = true ∨ cs = [])) := by
  have hdesc := descendant_mid_ne i a cs hnd
  have hfilter : (modulesListL cs).filter (fun x => x.mid != i) = modulesListL cs := by
    rw [List.filter_eq_self]
    intro x hx
    simpa using hdesc x hx
  simp [hookCond, modulesList_cons, List.filter_cons, hfilter, List.isEmpty_iff,
    modulesListL_eq_nil]

theorem mem_apply_hooksL_of_mem (xs : List NNModule) (o maxDepth c : Nat)
    (x : NNModule) (hx : x ∈ xs) (q : NNModule × Nat)
    (hq : q ∈ apply_hooks x o maxDepth c) : q ∈ apply_hooksL xs o maxDepth c := by
  induction xs with
  | nil => cases hx
  | cons y ys ih =>
    simp only [apply_hooksL, List.mem_append]
    rcases List.mem_cons.1 hx with h | h
    · exact Or.inl (h ▸ hq)
    · exact Or.inr (ih h)

/-- C2: a visited node is hooked iff it is not the root (distinct identity),
or it is atomic (`LAYER_MODULES`), or it has no descendant modules. -/
theorem walker_instruments_iff (root : NNModule) (maxDepth : Nat)
    (hnd : (root.modulesList.map NNModule.mid).Nodup) :
    ∀ n d, (n, d) ∈ visited root maxDepth 0 →
      ((n, d) ∈ apply_hooks root root.mid maxDepth 0 ↔
        (n.mid ≠ root.mid ∨ n.atomic = true ∨ n.children = [])) := by
  intro n d hv
  rw [apply_hooks_eq_filter, List.mem_filter]
  have hmem : n ∈ root.modulesList := mem_visited_mem_modulesList root maxDepth (n, d) hv
  constructor
  · rintro ⟨-, hcond⟩
    by_cases hid : n.mid = root.mid
    · have heq : n = root := eq_root_of_mid_eq root n hnd hmem hid
      subst heq
      obtain ⟨i, a, cs⟩ := n
      rcases (hookCond_root i a cs hnd).1 hcond with h | h
      · exact Or.inr (Or.inl h)
      · exact Or.inr (Or.inr h)
    · exact Or.inl hid
  · intro h
    refine ⟨hv, ?_⟩
    rcases h with h | h | h
    · simp [hookCond, bne_iff_ne, h]
    · simp [hookCond, h]
    · by_cases hid : n.mid = root.mid
      · have heq : n = root := eq_root_of_mid_eq root n hnd hmem hid
        subst heq
        obtain ⟨i, a, cs⟩ := n
        exact (hookCond_root i a cs hnd).2 (Or.inr h)
      · simp [hookCond, bne_iff_ne, hid]

theorem walker_instruments_iff_witness :
    ((demoRoot.modulesList.map NNModule.mid).Nodup ∧
      (NNModule.mk 1 true [], 1) ∈ visited demoRoot 3 0) ∧
    ((NNModule.mk 1 true [], 1) ∈ apply_hooks demoRoot demoRoot.mid 3 0 ↔
      ((NNModule.mk 1 true []).mid ≠ demoRoot.mid ∨
        (NNModule.mk 1 true []).atomic = true ∨ (NNModule.mk 1 true []).children = [])) :=
  ⟨⟨by decide, by decide⟩,
    walker_instruments_iff demoRoot 3 (by decide) (.mk 1 true []) 1 (by decide)⟩

/-- C3 (amended): traversal recurses into children only while
`curr_depth <= depth`, so the visited nodes are exactly those at distance
at most `depth + 1` from the root, and the hooked nodes are exactly the
visited nodes satisfying the registration condition.  In particular nodes
at distance exactly `depth + 1` are still visited and hooked. -/
theorem walker_visits_iff_within_depth_succ (m : NNModule) (o maxDepth : Nat) :
    visited m maxDepth 0 = (nodeDepths m 0).filter (fun p => decide (p.2 ≤ maxDepth + 1)) ∧
    apply_hooks m o maxDepth 0 = (visited m maxDepth 0).filter (fun p => hookCond p.1 o) :=
  ⟨visited_eq_filter m maxDepth 0 (by omega), apply_hooks_eq_filter m o maxDepth 0⟩

/-- C3 counterexample: with `depth = 0`, the root's direct child — at
distance 1 > 0 from the root — is still visited and given a hook. -/
theorem walker_visits_beyond_max_depth :
    (NNModule.mk 1 false [], 1) ∈ visited (.mk 0 false [.mk 1 false []]) 0 0 ∧
    (NNModule.mk 1 false [], 1) ∈ apply_hooks (.mk 0 false [.mk 1 false []]) 0 0 0 := by
  decide

/-- C7 (amended): every hooked node is recorded with depth equal to its
distance from the traversal root, and a direct child of the root (of
distinct identity) is hooked with depth 1, not 0; the root itself is the
only node that can be observed at depth 0. -/
theorem record_depth_is_distance (root : NNModule) (o maxDepth : Nat) :
    (∀ p ∈ apply_hooks root o maxDepth 0, p ∈ nodeDepths root 0) ∧
    (∀ c ∈ root.children, c.mid ≠ root.mid →
      (c, 1) ∈ apply_hooks root root.mid maxDepth 0) := by
  constructor
  · intro p hp
    rw [apply_hooks_eq_filter] at hp
    have hv : p ∈ visited root maxDepth 0 := (List.mem_filter.1 hp).1
    rw [visited_eq_filter root maxDepth 0 (by omega)] at hv
    exact (List.mem_filter.1 hv).1
  · intro c hc hne
    obtain ⟨i, a, cs⟩ := root
    simp only [NNModule.children_mk] at hc
    simp only [apply_hooks, NNModule.mid_mk, List.mem_append]
    refine Or.inr ?_
    rw [if_pos (Nat.zero_le maxDepth)]
    refine mem_apply_hooksL_of_mem cs i maxDepth 1 c hc (c, 1) ?_
    obtain ⟨j, b, ds⟩ := c
    simp only [NNModule.mid_mk] at hne
    simp only [apply_hooks, List.mem_append]
    refine Or.inl ?_
    rw [if_pos ?_]
    · exact List.mem_singleton.2 rfl
    · simp [hookCond, bne_iff_ne, hne]

theorem record_depth_is_distance_witness :
    ((NNModule.mk 1 false [], 1) ∈ apply_hooks (.mk 0 false [.mk 1 false []]) 0 3 0 ∧
      (NNModule.mk 1 false []) ∈ (NNModule.mk 0 false [.mk 1 false []]).children ∧
      (NNModule.mk 1 false []).mid ≠ (NNModule.mk 0 false [.mk 1 false []]).mid) ∧
    ((NNModule.mk 1 false [], 1) ∈ nodeDepths (.mk 0 false [.mk 1 false []]) 0 ∧
      (NNModule.mk 1 false [], 1) ∈
        apply_hooks (.mk 0 false [.mk 1 false []]) (NNModule.mk 0 false [.mk 1 false []]).mid 3 0) :=
  ⟨⟨by decide, by decide, by decide⟩,
    ⟨(record_depth_is_distance (.mk 0 false [.mk 1 false []]) 0 3).1
        (NNModule.mk 1 false [], 1) (by decide),
      (record_depth_is_distance (.mk 0 false [.mk 1 false []]) 0 3).2
        (.mk 1 false []) (by decide) (by decide)⟩⟩

/-- C7 counterexample: for a root with one plain child, the full hook list
is exactly `[(child, 1)]` — the record for the root's direct child carries
depth 1, not 0. -/
theorem direct_child_depth_one_not_zero :
    apply_hooks (.mk 0 false [.mk 1 false []]) 0 3 0 = [(.mk 1 false [], 1)] ∧
    (1 : Nat) ≠ 0 := by
  decide

theorem runHooks_orders (events : List Nat) (idx : Nat → Nat) :
    (runHooks events idx).map LayerRec.depth = events ∧
    ∀ d, ((runHooks events idx).filter (fun r => r.depth == d)).map LayerRec.order
      = List.range' (idx d + 1) (events.count d) := by
  induction events generalizing idx with
  | nil => simp [runHooks]
  | cons e es ih =>
    obtain ⟨ih1, ih2⟩ := ih (fun x => if x = e then idx e + 1 else idx x)
    constructor
    · simp only [runHooks, List.map_cons, ih1]
    · intro d
      simp only [runHooks, List.filter_cons]
      by_cases h : e = d
      · subst h
        rw [if_pos (by simp)]
        simp only [List.map_cons]
        rw [ih2 e]
        simp [List.range'_succ]
      · rw [if_neg (by simp [h])]
        rw [ih2 d]
        have hde : ¬d = e := fun hh => h hh.symm
        simp [List.count_cons, hde, h]

/-- C8: over any pass, the records are appended in firing order (the depth
sequence of the record list is the event sequence), and at every depth `d`
the orders of the records of that depth are `1, 2, 3, ...` — a 1-based
index shared across the whole depth, in observation order. -/
theorem hook_orders_one_based_per_depth (events : List Nat) :
    ((runHooks events (fun _ => 0)).map LayerRec.depth = events) ∧
    ∀ d, ((runHooks events (fun _ => 0)).filter (fun r => r.depth == d)).map LayerRec.order
      = List.range' 1 (events.count d) := by
  simpa using runHooks_orders events (fun _ => 0)

theorem numParams_partition (ps : List TorchParam) :
    numParams ps = numParamsBy true ps + numParamsBy false ps := by
  induction ps with
  | nil => rfl
  | cons p ps ih =>
    cases hg : p.requiresGrad <;>
      simp [numParams, numParamsBy, List.filter_cons, hg, List.map_cons] at ih ⊢ <;>
      omega

theorem sum_map_add {α : Type} (l : List α) (f g : α → Nat) :
    (l.map (fun x => f x + g x)).sum = (l.map f).sum + (l.map g).sum := by
  induction l with
  | nil => rfl
  | cons x xs ih => simp [List.map_cons, ih]; omega

/-- If identity `i` is already in the seen set, no later record is both
non-recursive and an owner of `i`. -/
theorem timesCounted_zero_of_seen (pass : List (List TorchParam)) (seen : List Nat)
    (i : Nat) (hi : i ∈ seen) :
    (check_recursive_pass pass seen).countP (fun r => !r.2 && ownsId r i) = 0 := by
  induction pass generalizing seen with
  | nil => rfl
  | cons ps rest ih =>
    by_cases h : ps.any (fun p => seen.contains p.pid)
    · rw [check_recursive_pass, if_pos h]
      simp [List.countP_cons, ih seen hi]
    · rw [check_recursive_pass, if_neg h]
      have howns : ownsId (ps, false) i = false := by
        cases hB : ownsId (ps, false) i
        · rfl
        · exfalso
          apply h
          obtain ⟨p, hp, hpid⟩ : ∃ p ∈ ps, (p.pid == i) = true := by
            simpa [ownsId] using hB
          rw [List.any_eq_true]
          refine ⟨p, hp, ?_⟩
          have hpi : p.pid = i := by simpa using hpid
          rw [hpi]
          exact List.elem_iff.mpr hi
      simp [List.countP_cons, howns,
        ih (seen ++ ps.map TorchParam.pid) (List.mem_append_left _ hi)]

/-- Any parameter identity enters the totals at most once: at most one
non-recursive record owns it. -/
theorem countP_owner_le_one (pass : List (List TorchParam)) (seen : List Nat) (i : Nat) :
    (check_recursive_pass pass seen).countP (fun r => !r.2 && ownsId r i) ≤ 1 := by
  induction pass generalizing seen with
  | nil => simp [check_recursive_pass]
  | cons ps rest ih =>
    by_cases h : ps.any (fun p => seen.contains p.pid)
    · rw [check_recursive_pass, if_pos h]
      simpa [List.countP_cons] using ih seen
    · rw [check_recursive_pass, if_neg h]
      by_cases hB : ownsId (ps, false) i = true
      · have hin : i ∈ seen ++ ps.map TorchParam.pid := by
          obtain ⟨p, hp, hpid⟩ : ∃ p ∈ ps, (p.pid == i) = true := by
            simpa [ownsId] using hB
          have hpi : p.pid = i := by simpa using hpid
          exact List.mem_append_right _ (hpi ▸ List.mem_map_of_mem TorchParam.pid hp)
        have h0 := timesCounted_zero_of_seen rest (seen ++ ps.map TorchParam.pid) i hin
        simp [List.countP_cons, hB, h0]
      · have hBf : ownsId (ps, false) i = false := by
          cases hx : ownsId (ps, false) i
          · rfl
          · exact absurd hx hB
        simpa [List.countP_cons, hBf] using ih (seen ++ ps.map TorchParam.pid)

theorem attributedIds_cons_true (ps : List TorchParam) (l : List PassRecord) :
    attributedIds ((ps, true) :: l) = attributedIds l := by
  simp [attributedIds]

theorem attributedIds_cons_false (ps : List TorchParam) (l : List PassRecord) :
    attributedIds ((ps, false) :: l) = ps.map TorchParam.pid ++ attributedIds l := by
  simp [attributedIds]

/-- A record is marked recursive exactly when one of its owned parameter
identities is in the seen set at its position: the initial `seen` plus all
identities attributed by earlier (non-recursive) records. -/
theorem is_recursive_iff_attributed_general (pass : List (List TorchParam)) (seen : List Nat) :
    ∀ k, k < (check_recursive_pass pass seen).length →
      (((check_recursive_pass pass seen).getD k ([], false)).2 = true ↔
        ∃ p ∈ ((check_recursive_pass pass seen).getD k ([], false)).1,
          p.pid ∈ seen ++ attributedIds ((check_recursive_pass pass seen).take k)) := by
  induction pass generalizing seen with
  | nil => intro k hk; simp [check_recursive_pass] at hk
  | cons ps rest ih =>
    intro k hk
    by_cases h : ps.any (fun p => seen.contains p.pid)
    · rw [check_recursive_pass, if_pos h] at hk ⊢
      match k with
      | 0 =>
        simp only [List.getD_cons_zero, List.take_zero]
        rw [show attributedIds [] = [] from rfl, List.append_nil]
        constructor
        · intro _
          obtain ⟨p, hp, hc⟩ := List.any_eq_true.1 h
          exact ⟨p, hp, List.elem_iff.1 hc⟩
        · intro _; trivial
      | k + 1 =>
        simp only [List.getD_cons_succ, List.take_succ_cons, attributedIds_cons_true,
          List.length_cons] at hk ⊢
        exact ih seen k (by omega)
    · rw [check_recursive_pass, if_neg h] at hk ⊢
      match k with
      | 0 =>
        simp only [List.getD_cons_zero, List.take_zero]
        rw [show attributedIds [] = [] from rfl, List.append_nil]
        constructor
        · intro hfalse; simp at hfalse
        · rintro ⟨p, hp, hmem⟩
          exact absurd (List.any_eq_true.2 ⟨p, hp, List.elem_iff.2 hmem⟩) h
      | k + 1 =>
        simp only [List.getD_cons_succ, List.take_succ_cons, attributedIds_cons_false,
          List.length_cons] at hk ⊢
        have hih := ih (seen ++ ps.map TorchParam.pid) k (by omega)
        simpa [List.append_assoc] using hih

/-- C1 (amended): for every pass, `total_params = trainable_params +
frozen_params`; exactly the non-recursive records contribute; every
parameter identity is counted at most once (not always exactly once); and a
record is recursive precisely when one of its owned identities was already
attributed by an earlier non-recursive record of the same pass. -/
theorem totals_consistent_and_at_most_once (pass : List (List TorchParam)) :
    total_params pass = trainable_params pass + frozen_params pass ∧
    (∀ i, timesCounted pass i ≤ 1) ∧
    (∀ k, k < (passRecords pass).length →
      (((passRecords pass).getD k ([], false)).2 = true ↔
        ∃ p ∈ ((passRecords pass).getD k ([], false)).1,
          p.pid ∈ attributedIds ((passRecords pass).take k))) := by
  refine ⟨?_, ?_, ?_⟩
  · rw [total_params, trainable_params, frozen_params]
    rw [show (fun r : PassRecord => numParams r.1) =
        fun r : PassRecord => numParamsBy true r.1 + numParamsBy false r.1 from
      funext fun r => numParams_partition r.1]
    exact sum_map_add _ _ _
  · intro i
    exact countP_owner_le_one pass [] i
  · intro k hk
    have := is_recursive_iff_attributed_general pass [] k hk
    simpa using this

/-- C1 counterexample: identity 3 appears in the pass but contributes to the
totals zero times, refuting "every physically distinct parameter tensor is
counted exactly once". -/
theorem shared_param_counted_zero_times :
    appearsIn overlappingPass 3 = true ∧ timesCounted overlappingPass 3 = 0 := by
  decide

theorem totals_consistent_witness :
    (1 < (passRecords sharedWeightPass).length) ∧
    (((passRecords sharedWeightPass).getD 1 ([], false)).2 = true ↔
      ∃ p ∈ ((passRecords sharedWeightPass).getD 1 ([], false)).1,
        p.pid ∈ attributedIds ((passRecords sharedWeightPass).take 1)) :=
  ⟨by decide, (totals_consistent_and_at_most_once sharedWeightPass).2.2 1 (by decide)⟩

/-- C4 (amended): a rejected input specification makes `summary` raise
before the forward pass — no observer fires, no record and no diagnostic is
produced — but the hooks have already been attached by `apply_hooks` and
remain attached when the error propagates. -/
theorem invalid_input_raises_before_forward (model : NNModule) (input : InputData)
    (maxDepth : Nat) (deviceType : String) (dtypesGiven : Bool) (fwd : FwdOutcome)
    (e : PyErr) (hval : validateInput input deviceType dtypesGiven = .error e) :
    summary model input maxDepth deviceType dtypesGiven fwd =
      ⟨.error e, apply_hooks model model.mid maxDepth 0, none⟩ := by
  simp [summary, hval]

theorem invalid_input_raises_before_forward_witness :
    (validateInput (.seqInput false []) "cpu" false = .error .assertionError) ∧
    summary (.mk 0 false [.mk 1 false []]) (.seqInput false []) 3 "cpu" false (.ok []) =
      ⟨.error .assertionError,
        apply_hooks (.mk 0 false [.mk 1 false []]) (NNModule.mk 0 false [.mk 1 false []]).mid 3 0,
        none⟩ :=
  ⟨by decide,
    invalid_input_raises_before_forward (.mk 0 false [.mk 1 false []]) (.seqInput false [])
      3 "cpu" false (.ok []) .assertionError (by decide)⟩

/-- C4 counterexample: an empty input list is rejected with
`AssertionError`, yet the hook list attached to the model is non-empty at
(and after) the raise — the claim that a rejected input leaves no
instrumentation on the model graph is false. -/
theorem invalid_input_leaves_hooks_attached :
    (summary (.mk 0 false [.mk 1 false []]) (.seqInput false []) 3 "cpu" false
        (.ok [])).result = .error .assertionError ∧
    (summary (.mk 0 false [.mk 1 false []]) (.seqInput false []) 3 "cpu" false
        (.ok [])).hooksLeft ≠ [] := by
  decide

/-- C5: once the instrumented forward pass is reached (input accepted),
every registered handle is removed on both exit paths — normal return and
exception — and the record list delivered by a successful pass is rebuilt
from that pass's firings alone, so a re-run cannot see duplicated
records. -/
theorem hooks_removed_on_every_exit (model : NNModule) (input : InputData)
    (maxDepth : Nat) (deviceType : String) (dtypesGiven : Bool) (sizes : List PySize)
    (hval : validateInput input deviceType dtypesGiven = .ok sizes) :
    (∀ fwd, (summary model input maxDepth deviceType dtypesGiven fwd).hooksLeft = []) ∧
    (∀ events, (summary model input maxDepth deviceType dtypesGiven (.ok events)).result
      = .ok (runHooks events (fun _ => 0))) := by
  constructor
  · intro fwd
    cases fwd <;> simp [summary, hval]
  · intro events
    simp [summary, hval]

theorem hooks_removed_on_every_exit_witness :
    (validateInput (.seqInput false [.seq true [.int 2, .int 3]]) "cpu" true =
      .ok [.seq true [.int 2, .int 3]]) ∧
    (summary (.mk 0 false [.mk 1 false []]) (.seqInput false [.seq true [.int 2, .int 3]])
        3 "cpu" true (.raises [1] 42)).hooksLeft = [] :=
  ⟨by decide,
    (hooks_removed_on_every_exit (.mk 0 false [.mk 1 false []])
        (.seqInput false [.seq true [.int 2, .int 3]]) 3 "cpu" true
        [.seq true [.int 2, .int 3]] (by decide)).1 (.raises [1] 42)⟩

/-- C6: a forward-pass failure makes `summary` print a diagnostic holding
exactly the records captured before the failure and re-raise the original
exception object unchanged; hooks are still detached by the `finally`. -/
theorem forward_failure_reraised (model : NNModule) (input : InputData)
    (maxDepth : Nat) (deviceType : String) (dtypesGiven : Bool) (sizes : List PySize)
    (events : List Nat) (exc : Nat)
    (hval : validateInput input deviceType dtypesGiven = .ok sizes) :
    summary model input maxDepth deviceType dtypesGiven (.raises events exc) =
      ⟨.error (.fwdError exc), [], some (runHooks events (fun _ => 0))⟩ := by
  simp [summary, hval]

theorem forward_failure_reraised_witness :
    (validateInput (.seqInput false [.seq true [.int 2, .int 3]]) "cpu" true =
      .ok [.seq true [.int 2, .int 3]]) ∧
    summary (.mk 0 false [.mk 1 false []]) (.seqInput false [.seq true [.int 2, .int 3]])
        3 "cpu" true (.raises [1, 1] 42) =
      ⟨.error (.fwdError 42), [], some (runHooks [1, 1] (fun _ => 0))⟩ :=
  ⟨by decide,
    forward_failure_reraised (.mk 0 false [.mk 1 false []])
      (.seqInput false [.seq true [.int 2, .int 3]]) 3 "cpu" true
      [.seq true [.int 2, .int 3]] [1, 1] 42 (by decide)⟩

/-- C9: for a list/tuple shape descriptor and a batch dimension within
range, the synthesized tensor's shape is the descriptor with one extra
dimension of extent exactly 2 inserted at `batch_dim` (two concatenated
copies of a tensor of the given shape). -/
theorem input_tensor_has_batch_two (size : List Nat) (batchDim : Nat)
    (h : batchDim ≤ size.length) :
    get_input_tensor_shape size batchDim = insertDim batchDim 2 size := by
  induction batchDim generalizing size with
  | zero =>
    simp [get_input_tensor_shape, unsqueezeShape, catTwoShape, insertDim, List.set,
      List.getD]
  | succ d ih =>
    cases size with
    | nil => simp at h
    | cons x xs =>
      have h' : d ≤ xs.length := by simpa using h
      have hx := ih xs h'
      simp only [get_input_tensor_shape, unsqueezeShape, catTwoShape, insertDim] at hx ⊢
      simpa [List.getD_cons_succ, List.set_cons_succ] using hx

theorem input_tensor_has_batch_two_witness :
    (1 ≤ ([3, 4] : List Nat).length) ∧
    get_input_tensor_shape [3, 4] 1 = insertDim 1 2 [3, 4] :=
  ⟨by decide, input_tensor_has_batch_two [3, 4] 1 (by decide)⟩

/-- C10: under the forwarded kwargs, a key whose original value is not a
tensor maps to the key string itself, while a tensor-valued key maps to the
same tensor moved to the device. -/
theorem kwargs_nontensor_replaced_by_key (device : String)
    (kwargs : List (String × PyVal)) (hnd : (kwargs.map Prod.fst).Nodup)
    (k : String) (v : PyVal) (hkv : (k, v) ∈ kwargs) :
    (v.is_tensor = false → (processKwargs device kwargs).lookup k = some (.str k)) ∧
    (∀ dev t, v = .tensor dev t →
      (processKwargs device kwargs).lookup k = some (.tensor device t)) := by
  induction kwargs with
  | nil => cases hkv
  | cons hd tl ih =>
    obtain ⟨k', v'⟩ := hd
    simp only [List.map_cons, List.nodup_cons] at hnd
    by_cases hk : k' = k
    · subst hk
      have hv : v' = v := by
        rcases List.mem_cons.1 hkv with h | h
        · exact (congrArg Prod.snd h).symm
        · exact absurd (List.mem_map_of_mem Prod.fst h) hnd.1
      subst hv
      constructor
      · intro ht
        simp [processKwargs, List.lookup, ht]
      · rintro dev t rfl
        simp [processKwargs, List.lookup, PyVal.is_tensor, PyVal.toDev]
    · have hmem : (k, v) ∈ tl := by
        rcases List.mem_cons.1 hkv with h | h
        · exact absurd (congrArg Prod.fst h).symm hk
        · exact h
      have hne : (k == k') = false := by
        have : ¬k = k' := fun hh => hk hh.symm
        simp [this]
      obtain ⟨ih1, ih2⟩ := ih hnd.2 hmem
      constructor
      · intro ht
        simpa [processKwargs, List.lookup, hne] using ih1 ht
      · intro dev t hvt
        simpa [processKwargs, List.lookup, hne] using ih2 dev t hvt

theorem kwargs_nontensor_replaced_by_key_witness :
    (((([("mask", PyVal.intv 5), ("x", PyVal.tensor "cpu" 9)] :
          List (String × PyVal)).map Prod.fst).Nodup ∧
      ("mask", PyVal.intv 5) ∈
        ([("mask", PyVal.intv 5), ("x", PyVal.tensor "cpu" 9)] : List (String × PyVal)) ∧
      (PyVal.intv 5).is_tensor = false) ∧
    (processKwargs "cuda" [("mask", .intv 5), ("x", .tensor "cpu" 9)]).lookup "mask" =
      some (.str "mask")) :=
  ⟨⟨by decide, by decide, by decide⟩,
    (kwargs_nontensor_replaced_by_key "cuda"
        [("mask", .intv 5), ("x", .tensor "cpu" 9)] (by decide) "mask" (.intv 5)
        (by decide)).1 (by decide)⟩
